import Mathlib

/-
Verification of the woofmoo archive directory engine, a shallow embedding of
src/index.mjs.  Strings are modelled as Lean Strings (lists of characters),
JavaScript objects used as string-keyed dictionaries are modelled as
association lists in insertion order (all keys arising here are non-numeric
show titles, for which JavaScript object key iteration order is insertion
order), timestamps (Date.now() values) are naturals counting milliseconds,
and fallible things (axios fetches, the async.each ingestion loop) return
Option / Except values.
-/

set_option autoImplicit false

deriving instance DecidableEq for Except

namespace Woofmoo

/-- The record stored for each show, mirroring the object literals built in
src/index.mjs (liveStreamShow and the archive object built in applyShow).
`date` and `dateFound` are absent (`none`) on the permanent live-stream
record. -/
structure ArchiveRecord where
  titleAnnounce : String
  description : String
  mp3Link : String
  date : Option String := none
  dateFound : Option Nat := none
deriving DecidableEq

/-- The `archives` dictionary: key-value pairs in insertion order. -/
abbrev Table := List (String × ArchiveRecord)

/-- Station name constant `wfmu`. -/
def wfmu : String := "WFMU"

/-- Livestream URL constant. -/
def wfmuLivestreamUrl : String := "http://stream0.wfmu.org/freeform-128k"

/-- The livestream "show" object literal. -/
def liveStreamShow : ArchiveRecord :=
  { titleAnnounce := wfmu, description := wfmu, mp3Link := wfmuLivestreamUrl }

/-- The default show dictionary `{ play: liveStreamShow, wfmu: liveStreamShow }`,
in object-literal insertion order. -/
def defaultShows : Table :=
  [("play", liveStreamShow), ("wfmu", liveStreamShow)]

/-- `30 * 24 * 60 * 60 * 1000` milliseconds (30 days). -/
def archiveAgeLimitMilliseconds : Nat := 30 * 24 * 60 * 60 * 1000

/-- Property read `obj[k]` on a dictionary: the value of the first entry whose
key is `k`, if any. -/
def jsGet : Table → String → Option ArchiveRecord
  | [], _ => none
  | kv :: rest, k => if kv.1 = k then some kv.2 else jsGet rest k

/-- Property write `obj[k] = v`: overwrite in place when the key exists
(JavaScript keeps the original insertion position), otherwise append. -/
def jsSet (shows : Table) (k : String) (v : ArchiveRecord) : Table :=
  if (jsGet shows k).isSome then
    shows.map (fun kv => if kv.1 = k then (kv.1, v) else kv)
  else
    shows ++ [(k, v)]

/-- JavaScript coerces a property key to a string, so `obj[best]` with
`best === null` reads the property named `"null"`. -/
def jsKeyString : Option String → String
  | none => "null"
  | some k => k

/-- `Object.assign({}, a, b)`: keys of `a` in order (values overridden by `b`
where `b` has the key), followed by the keys of `b` not present in `a`. -/
def jsObjectAssign (a b : Table) : Table :=
  a.map (fun kv => (kv.1, (jsGet b kv.1).getD kv.2)) ++
    b.filter (fun kv => (jsGet a kv.1).isNone)

/-- Truthiness of a possibly-absent JavaScript string: `undefined`/`null` and
the empty string are falsy. -/
def truthy : Option String → Bool
  | none => false
  | some s => !s.isEmpty

/-- JavaScript `String.prototype.trim` on a character list: drop whitespace
from both ends. -/
def jsTrimList (l : List Char) : List Char :=
  ((l.dropWhile Char.isWhitespace).reverse.dropWhile Char.isWhitespace).reverse

/-- JavaScript `String.prototype.trim`. -/
def jsTrim (s : String) : String := String.mk (jsTrimList s.data)

/-- JavaScript `toLowerCase`, restricted to the ASCII range that the engine's
keys live in (`Char.toLower` folds exactly the characters A-Z). -/
def jsToLowerStr (s : String) : String := String.mk (s.data.map Char.toLower)

/-- The three `replace(/./g, "")` calls of `getTitleSynonyms`: remove every
occurrence of the characters `"`, `:` and `!`. -/
def stripSpecials (l : List Char) : List Char :=
  l.filter (fun c => !(c == '"' || c == ':' || c == '!'))

/-- Character-level edit distance with an explicit structural iteration bound
(every recursive call shortens the combined input, so a bound of the combined
length is enough; insensitivity to any sufficient bound is proved below). -/
def levenshteinFuel : Nat → List Char → List Char → Nat
  | 0, s, t => s.length + t.length
  | _ + 1, [], t => t.length
  | _ + 1, s, [] => s.length
  | n + 1, a :: s, b :: t =>
    if a = b then levenshteinFuel n s t
    else 1 + min (levenshteinFuel n s t)
      (min (levenshteinFuel n (a :: s) t) (levenshteinFuel n s (b :: t)))

/-- Character-level edit distance (insertions, deletions, substitutions at
unit cost), the function computed by the js-levenshtein package. -/
def levenshtein (s t : List Char) : Nat :=
  levenshteinFuel (s.length + t.length) s t

/-- The staleness test of getBestMatchArchive:
`archive.dateFound && now - archive.dateFound > archiveAgeLimitMilliseconds`.
A missing `dateFound` is falsy, as is a zero one (the number 0 is falsy in
JavaScript), and the subtraction saturates exactly as the JavaScript
comparison behaves for `dateFound` in the future. -/
def isStale (now : Nat) (a : ArchiveRecord) : Bool :=
  match a.dateFound with
  | none => false
  | some d => d != 0 && decide (archiveAgeLimitMilliseconds < now - d)

/-- One iteration of the forEach loop in getBestMatchArchive, acting on the
state `(best, bestDistance)`. -/
def bestStep (title : String) (now : Nat) (st : Option String × Nat)
    (kv : String × ArchiveRecord) : Option String × Nat :=
  let distance := levenshtein title.data kv.1.data
  if distance < st.2 then
    if isStale now kv.2 then st else (some kv.1, distance)
  else st

/-- getBestMatchArchive: scan every key, tracking the strict-improvement best
starting from `bestDistance = 10000`, then return `archives[best]`. -/
def getBestMatchArchive (archives : Table) (title : String) (now : Nat) :
    Option ArchiveRecord :=
  let best := archives.foldl (bestStep title now) (none, 10000)
  jsGet archives (jsKeyString best.1)

/-- The playArchive handler's resolution: lowercase the requested name, try an
exact property read, and only on a miss fall back to fuzzy matching. -/
def resolveArchive (archives : Table) (requested : String) (now : Nat) :
    Option ArchiveRecord :=
  let requestedArchiveName := jsToLowerStr requested
  match jsGet archives requestedArchiveName with
  | some matched => some matched
  | none => getBestMatchArchive archives requestedArchiveName now

/-- Does `s` start with the pattern `pat`? -/
def listStartsWith : List Char → List Char → Bool
  | _, [] => true
  | [], _ :: _ => false
  | a :: s, b :: pat => a == b && listStartsWith s pat

/-- Matching of a greedy two-group body `(.+)SEP(.+)` against the whole of `r`
(the regexes of index.mjs are unanchored, so nothing constrains what follows
the second group).  `.` does not match a newline, so the first group is
confined to the first line of `r`; greediness means the largest split point
wins, and the second group must be a nonempty run of non-newline characters.
The split point `j` is the length of the first captured group. -/
def matchGreedySplit (sep : List Char) (r : List Char) :
    Option (List Char × List Char) :=
  (((List.range ((r.takeWhile (fun c => c != '\n')).length + 1)).filter
      (fun j => decide (1 ≤ j) && listStartsWith (r.drop j) sep &&
        !((r.drop (j + sep.length)).takeWhile (fun c => c != '\n')).isEmpty)).getLast?).map
    (fun j => (r.take j, (r.drop (j + sep.length)).takeWhile (fun c => c != '\n')))

/-- `String.prototype.match` against an unanchored pattern `PRE(.+)SEP(.+)`
(with `PRE` a literal, possibly empty): try each start position from the left;
at the first position where the literal matches and the greedy group body
succeeds, return the two captured groups. -/
def jsMatchTwoGroups (pre sep : List Char) : List Char → Option (List Char × List Char)
  | [] => none
  | s@(_ :: rest) =>
    if listStartsWith s pre then
      match matchGreedySplit sep (s.drop pre.length) with
      | some g => some g
      | none => jsMatchTwoGroups pre sep rest
    else jsMatchTwoGroups pre sep rest

/-- Matching of a greedy single-group body `(.+)POST` against the whole of
`r`: the largest `j` such that the nonempty, newline-free prefix of length `j`
is followed by the literal `POST` gives the captured group. -/
def greedyCapBefore (post : List Char) (r : List Char) : Option (List Char) :=
  (((List.range ((r.takeWhile (fun c => c != '\n')).length + 1)).filter
      (fun j => decide (1 ≤ j) && listStartsWith (r.drop j) post)).getLast?).map
    (fun j => r.take j)

/-- `String.prototype.match` against an unanchored pattern `PRE(.+)POST`:
leftmost start position whose greedy single-group body succeeds. -/
def jsMatchCapture (pre post : List Char) : List Char → Option (List Char)
  | [] => none
  | s@(_ :: rest) =>
    if listStartsWith s pre then
      match greedyCapBefore post (s.drop pre.length) with
      | some c => some c
      | none => jsMatchCapture pre post rest
    else jsMatchCapture pre post rest

/-- The literal ` from ` of the XML archive-title pattern. -/
def fromSep : List Char := " from ".data

/-- The literal ` with ` of the co-host stripping pattern. -/
def withSep : List Char := " with ".data

/-- The literal prefix of the XML archive-title pattern. -/
def archiveLit : List Char := "WFMU MP3 Archive: ".data

/-- The apostrophe character (written by code point). -/
def apostrophe : Char := Char.ofNat 39

/-- The literal tail of the possessive-show synonym pattern. -/
def sShowSep : List Char := apostrophe :: "s show".data

/-- The literal prefix of the radio-programme synonym pattern. -/
def theLit : List Char := "the ".data

/-- The literal tail of the radio-programme synonym pattern. -/
def radioProgrammeSep : List Char := " radio programme".data

/-- The `for (;;)` co-host stripping loop of refreshArchiveListFromXml,
written with an explicit iteration bound: each successful match replaces the
title by its first captured group.  The bound is shown sufficient in the
termination theorem below. -/
def stripHostsFuel : Nat → List Char → List Char
  | 0, t => t
  | n + 1, t =>
    match jsMatchTwoGroups [] withSep t with
    | some g => stripHostsFuel n g.1
    | none => t

/-- The co-host stripping loop, started with enough fuel (the title length
strictly decreases at every successful match). -/
def stripHosts (t : List Char) : List Char := stripHostsFuel t.length t

/-- The match of a raw XML item title against the archive-title pattern. -/
def matchArchiveTitle (raw : String) : Option (List Char × List Char) :=
  jsMatchTwoGroups archiveLit fromSep raw.data

/-- XML title extraction: match the archive-title pattern, then repeatedly
strip trailing co-host clauses from the captured title; yields (title, date)
or nothing when the pattern does not match. -/
def xmlTitleDate (raw : String) : Option (String × String) :=
  (matchArchiveTitle raw).map
    (fun g => (String.mk (stripHosts g.1), String.mk g.2))

/-- getTitleSynonyms: lowercase, strip the special characters, then add the
possessive-show and radio-programme captures when those patterns match. -/
def getTitleSynonyms (title : String) : List String :=
  let t := stripSpecials (title.data.map Char.toLower)
  let synonyms := [String.mk t]
  let synonyms :=
    match jsMatchCapture [] sShowSep t with
    | some c => synonyms ++ [String.mk c]
    | none => synonyms
  match jsMatchCapture theLit radioProgrammeSep t with
  | some c => synonyms ++ [String.mk c]
  | none => synonyms

/-- applyShow: when the title, date and indirect link are all truthy, fetch
the referenced playlist text (a failed fetch rejects this iteratee) and write
the record under every synonym key; otherwise skip silently. -/
def applyShow (fetch : String → Option String) (now : Nat)
    (title showDate m3uLink : Option String) (shows : Table) : Except Unit Table :=
  if truthy m3uLink && truthy title && truthy showDate then
    match fetch (m3uLink.getD "") with
    | none => .error ()
    | some data =>
      let archive : ArchiveRecord :=
        { titleAnnounce := title.getD "", description := "WFMU archive",
          date := showDate, mp3Link := jsTrim data, dateFound := some now }
      .ok ((getTitleSynonyms (title.getD "")).foldl (fun sh k => jsSet sh k archive) shows)
  else .ok shows

/-- The async.each ingestion loop of the refresh functions, over the
(title, date, link) triples extracted from a fetched listing: the table starts
from a copy of defaultShows, and a rejection of any iteratee (a failed
per-triple fetch in applyShow) rejects the whole async.each call, so the
refresh produces no table at all in that case. -/
def ingestTriples (fetch : String → Option String) (now : Nat)
    (triples : List (Option String × Option String × Option String)) :
    Except Unit Table :=
  triples.foldl
    (fun acc t => acc.bind (fun shows => applyShow fetch now t.1 t.2.1 t.2.2 shows))
    (.ok defaultShows)

/-- One item of the XML feed, as (guid text, raw title text), processed as in
refreshArchiveListFromXml: when the archive-title pattern does not match, the
title variable keeps the raw text and the date stays unset. -/
def xmlProcessItem (fetch : String → Option String) (now : Nat)
    (item : Option String × Option String) (shows : Table) : Except Unit Table :=
  let m3uLink := item.1
  let td : Option String × Option String :=
    match item.2 with
    | none => (none, none)
    | some raw =>
      match matchArchiveTitle raw with
      | some g => (some (String.mk (stripHosts g.1)), some (String.mk g.2))
      | none => (some raw, none)
  applyShow fetch now td.1 td.2 m3uLink shows

/-- The capture of the HTML date pattern `(.+):[.|\s]*` against a text: the
character class after the colon can match empty and nothing is anchored, so a
successful match at a position is exactly a colon later in the same line with
at least one character between, and greediness picks the last such colon; the
capture is everything before it.  Positions are tried from the left. -/
def dateCapture : List Char → Option (List Char)
  | [] => none
  | s@(_ :: rest) =>
    match ((List.range (s.takeWhile (fun c => c != '\n')).length).filter
        (fun j => decide (1 ≤ j) && (s.getD j ' ' == ':'))).getLast? with
    | some j => some (s.take j)
    | none => dateCapture rest

/-- The HTML variant's date extraction: trim the date element text, capture
with the date pattern, then trim and lowercase the capture. -/
def htmlShowDate (raw : String) : Option String :=
  (dateCapture (jsTrimList raw.data)).map
    (fun c => String.mk ((jsTrimList c).map Char.toLower))

/-- The date extraction exactly as the claim words it: everything before the
FIRST colon of the trimmed date text (then trimmed and lowercased the way the
code post-processes its capture). -/
def claimDateBeforeFirstColon (raw : String) : Option String :=
  let t := jsTrimList raw.data
  match t.findIdx? (fun c => c == ':') with
  | some j =>
    if 1 ≤ j then some (String.mk ((jsTrimList (t.take j)).map Char.toLower))
    else none
  | none => none

/-- A fetch oracle that always succeeds with a fixed media URL. -/
def fetchConst : String → Option String := fun _ => some "http://x/a.mp3"

/-- The record ingested for a show titled "WFMU" at time 5. -/
def recC1 : ArchiveRecord :=
  { titleAnnounce := "WFMU", description := "WFMU archive", date := some "monday",
    mp3Link := "http://x/a.mp3", dateFound := some 5 }

/-- The table produced by ingesting a show titled "WFMU": the permanent
live-stream record under the key "wfmu" has been overwritten. -/
def tableC1 : Table := [("play", liveStreamShow), ("wfmu", recC1)]

/-- A query at Levenshtein distance 10000 from the key "a". -/
def bigQuery : String := String.mk (List.replicate 10000 'b')

/-- A fetch oracle failing on the link "l1" and succeeding on "l2". -/
def fetchC3 : String → Option String :=
  fun u => if u = "l2" then some "http://y/b.mp3" else none

/-- A fetch oracle resolving the link "l1" to "u1" and anything else to "u2". -/
def fetchC5 : String → Option String :=
  fun u => if u = "l1" then some "u1" else some "u2"

/-- The record ingested for a show titled "AB" at time 9. -/
def recC5a : ArchiveRecord :=
  { titleAnnounce := "AB", description := "WFMU archive", date := some "d",
    mp3Link := "u1", dateFound := some 9 }

/-- The record ingested for a show titled "A" at time 9. -/
def recC5b : ArchiveRecord :=
  { titleAnnounce := "A", description := "WFMU archive", date := some "d",
    mp3Link := "u2", dateFound := some 9 }

/-- The table produced by ingesting shows "AB" then "A" at time 9. -/
def tableC5 : Table :=
  [("play", liveStreamShow), ("wfmu", liveStreamShow), ("ab", recC5a), ("a", recC5b)]

/-- One day in milliseconds. -/
def dayMilliseconds : Nat := 24 * 60 * 60 * 1000

/-- A scraped record discovered at time 1000, stored under the key "null". -/
def recC6 : ArchiveRecord :=
  { titleAnnounce := "Null", description := "WFMU archive", date := some "d",
    mp3Link := "u", dateFound := some 1000 }

/-- A time 31 days after recC6 was discovered. -/
def nowC6 : Nat := 1000 + 31 * dayMilliseconds

/-- A table whose only entry is the stale record under the key "null". -/
def tableC6 : Table := [("null", recC6)]

/-- A scraped record discovered at time 1000 under the key "wake". -/
def recC6b : ArchiveRecord :=
  { titleAnnounce := "Wake", description := "WFMU archive", date := some "d",
    mp3Link := "u", dateFound := some 1000 }

/-- A time 29 days after recC6b was discovered. -/
def nowC6b : Nat := 1000 + 29 * dayMilliseconds

/-- A table whose only entry is the 29-day-old record under the key "wake". -/
def tableC6b : Table := [("wake", recC6b)]

/-- The record ingested for a show titled "Play!" at time 7. -/
def recC9 : ArchiveRecord :=
  { titleAnnounce := "Play!", description := "WFMU archive", date := some "tue",
    mp3Link := "http://x/a.mp3", dateFound := some 7 }

/-- The table produced by ingesting a show titled "Play!": the permanent
live-stream record under the key "play" has been overwritten. -/
def tableC9 : Table := [("play", recC9), ("wfmu", liveStreamShow)]

theorem levenshteinFuel_nil_right (fuel : Nat) (s : List Char) :
    levenshteinFuel fuel s [] = s.length := by
  cases fuel <;> cases s <;> simp [levenshteinFuel]

theorem levenshteinFuel_nil_left (fuel : Nat) (t : List Char) :
    levenshteinFuel fuel [] t = t.length := by
  cases fuel <;> simp [levenshteinFuel]

theorem levenshteinFuel_congr :
    ∀ (n m : Nat) (s t : List Char), s.length + t.length ≤ n →
      s.length + t.length ≤ m → levenshteinFuel n s t = levenshteinFuel m s t := by
  intro n
  induction n with
  | zero =>
    intro m s t hn _
    have hs : s = [] := List.length_eq_zero.mp (by omega)
    have ht : t = [] := List.length_eq_zero.mp (by omega)
    subst hs; subst ht
    cases m <;> simp [levenshteinFuel]
  | succ n ih =>
    intro m s t hn hm
    cases m with
    | zero =>
      have hs : s = [] := List.length_eq_zero.mp (by omega)
      have ht : t = [] := List.length_eq_zero.mp (by omega)
      subst hs; subst ht
      simp [levenshteinFuel]
    | succ m =>
      cases s with
      | nil => simp [levenshteinFuel]
      | cons a s =>
        cases t with
        | nil => simp [levenshteinFuel]
        | cons b t =>
          simp only [List.length_cons] at hn hm
          simp only [levenshteinFuel]
          by_cases hab : a = b
          · rw [if_pos hab, if_pos hab, ih m s t (by omega) (by omega)]
          · rw [if_neg hab, if_neg hab, ih m s t (by omega) (by omega),
              ih m (a :: s) t (by simp only [List.length_cons]; omega)
                (by simp only [List.length_cons]; omega),
              ih m s (b :: t) (by simp only [List.length_cons]; omega)
                (by simp only [List.length_cons]; omega)]

theorem levenshteinFuel_replicate (a b : Char) (hba : ¬b = a) :
    ∀ (n m : Nat), n + 2 ≤ m →
      levenshteinFuel m (List.replicate (n + 1) b) [a] = n + 1 := by
  intro n
  induction n with
  | zero =>
    intro m hm
    obtain ⟨m', rfl⟩ : ∃ m', m = m' + 1 := ⟨m - 1, by omega⟩
    rw [show List.replicate 1 b = [b] from rfl]
    simp only [levenshteinFuel]
    rw [if_neg hba, levenshteinFuel_nil_right, levenshteinFuel_nil_right,
      levenshteinFuel_nil_left]
    simp
  | succ n ih =>
    intro m hm
    obtain ⟨m', rfl⟩ : ∃ m', m = m' + 1 := ⟨m - 1, by omega⟩
    rw [show List.replicate (n + 1 + 1) b = b :: List.replicate (n + 1) b from rfl]
    simp only [levenshteinFuel]
    rw [if_neg hba, levenshteinFuel_nil_right, levenshteinFuel_nil_right,
      ih m' (by omega)]
    simp only [List.length_replicate, List.length_cons]
    omega

theorem levenshtein_replicate (a b : Char) (hba : ¬b = a) (n : Nat) :
    levenshtein (List.replicate (n + 1) b) [a] = n + 1 := by
  unfold levenshtein
  simp only [List.length_replicate, List.length_cons, List.length_nil]
  exact levenshteinFuel_replicate a b hba n (n + 1 + 1) (by omega)

theorem levenshtein_big : levenshtein bigQuery.data ("a" : String).data = 10000 := by
  rw [show bigQuery.data = List.replicate 10000 'b' from rfl,
    show ("a" : String).data = ['a'] from rfl,
    show (10000 : Nat) = 9999 + 1 by norm_num]
  exact levenshtein_replicate 'a' 'b' (by decide) 9999

theorem jsGet_append (x y : Table) (k : String) :
    jsGet (x ++ y) k =
      match jsGet x k with
      | some v => some v
      | none => jsGet y k := by
  induction x with
  | nil => simp [jsGet]
  | cons kv rest ih =>
    obtain ⟨k', v⟩ := kv
    by_cases h : k' = k
    · simp [jsGet, h]
    · simp [jsGet, h, ih]

theorem jsGet_assign_map (a b : Table) (k : String) :
    jsGet (a.map (fun kv => (kv.1, (jsGet b kv.1).getD kv.2))) k
      = (jsGet a k).map (fun v => (jsGet b k).getD v) := by
  induction a with
  | nil => simp [jsGet]
  | cons kv rest ih =>
    obtain ⟨k', v⟩ := kv
    by_cases h : k' = k
    · subst h; simp [jsGet]
    · simp [jsGet, h, ih]

theorem jsGet_assign_filter_none (a b : Table) (k : String) (h : jsGet a k = none) :
    jsGet (b.filter (fun kv => (jsGet a kv.1).isNone)) k = jsGet b k := by
  induction b with
  | nil => simp
  | cons kv rest ih =>
    obtain ⟨k', v⟩ := kv
    by_cases hk : k' = k
    · subst hk
      simp [List.filter_cons, h, jsGet]
    · by_cases hp : jsGet a k' = none
      · simp [List.filter_cons, hp, jsGet, hk, ih]
      · simp [List.filter_cons, hp, jsGet, hk, ih]

theorem jsGet_assign_filter_some (a b : Table) (k : String)
    (h : (jsGet a k).isSome = true) :
    jsGet (b.filter (fun kv => (jsGet a kv.1).isNone)) k = none := by
  induction b with
  | nil => simp [jsGet]
  | cons kv rest ih =>
    obtain ⟨k', v⟩ := kv
    by_cases hk : k' = k
    · subst hk
      have hp : ¬(jsGet a k' = none) := Option.isSome_iff_ne_none.mp h
      simp [List.filter_cons, hp, ih]
    · by_cases hp : jsGet a k' = none
      · simp [List.filter_cons, hp, jsGet, hk, ih]
      · simp [List.filter_cons, hp, ih]

theorem jsGet_jsObjectAssign (a b : Table) (k : String) :
    jsGet (jsObjectAssign a b) k =
      match jsGet b k with
      | some v => some v
      | none => jsGet a k := by
  unfold jsObjectAssign
  rw [jsGet_append, jsGet_assign_map]
  cases ha : jsGet a k with
  | none =>
    rw [jsGet_assign_filter_none a b k ha]
    cases hb : jsGet b k <;> simp
  | some v =>
    rw [jsGet_assign_filter_some a b k (by simp [ha])]
    cases hb : jsGet b k <;> simp

theorem jsGet_of_mem_nodup {l : Table} {k : String} {r : ArchiveRecord}
    (hn : (l.map Prod.fst).Nodup) (hm : (k, r) ∈ l) : jsGet l k = some r := by
  induction l with
  | nil => simp at hm
  | cons kv rest ih =>
    rw [List.map_cons, List.nodup_cons] at hn
    rcases List.mem_cons.mp hm with h | h
    · rw [← h]
      simp [jsGet]
    · by_cases hk : kv.1 = k
      · exfalso
        apply hn.1
        rw [hk]
        exact List.mem_map.mpr ⟨(k, r), h, rfl⟩
      · obtain ⟨k', v⟩ := kv
        simp only [jsGet, if_neg hk]
        exact ih hn.2 h

theorem jsGet_none_of_not_mem {l : Table} {k : String}
    (h : ∀ v, (k, v) ∉ l) : jsGet l k = none := by
  induction l with
  | nil => rfl
  | cons kv rest ih =>
    obtain ⟨k', v⟩ := kv
    by_cases hk : k' = k
    · exfalso
      exact h v (by rw [hk]; exact List.mem_cons_self _ _)
    · simp only [jsGet, if_neg hk]
      exact ih (fun v2 hv2 => h v2 (List.mem_cons_of_mem _ hv2))

theorem jsGet_overwrite (u : Table) (k' k : String) (v : ArchiveRecord) :
    jsGet (u.map (fun kv => if kv.1 = k' then (kv.1, v) else kv)) k
      = if k' = k then (jsGet u k).map (fun _ => v) else jsGet u k := by
  induction u with
  | nil => simp [jsGet]
  | cons kv rest ih =>
    obtain ⟨k1, v1⟩ := kv
    by_cases h1 : k1 = k'
    · subst h1
      by_cases hk : k1 = k
      · subst hk
        simp [jsGet]
      · simp [jsGet, hk, ih]
    · by_cases hk : k1 = k
      · subst hk
        have h2 : ¬(k' = k1) := fun hc => h1 hc.symm
        simp [jsGet, h1, h2]
      · simp [jsGet, h1, hk, ih]

theorem jsGet_jsSet (t : Table) (k' k : String) (v : ArchiveRecord) :
    jsGet (jsSet t k' v) k = if k' = k then some v else jsGet t k := by
  unfold jsSet
  by_cases hs : (jsGet t k').isSome = true
  · rw [if_pos hs, jsGet_overwrite]
    by_cases hk : k' = k
    · subst hk
      obtain ⟨w, hw⟩ := Option.isSome_iff_exists.mp hs
      simp [hw]
    · simp [hk]
  · rw [if_neg hs, jsGet_append]
    have hnone : jsGet t k' = none := Option.not_isSome_iff_eq_none.mp hs
    by_cases hk : k' = k
    · subst hk
      rw [hnone]
      simp [jsGet]
    · cases hg : jsGet t k with
      | some w => simp [hg, hk]
      | none => simp [hg, jsGet, hk]

theorem foldl_jsSet_preserves (keys : List String) (v : ArchiveRecord) :
    ∀ (sh : Table) (k : String), (jsGet sh k).isSome = true →
      (jsGet (keys.foldl (fun s k1 => jsSet s k1 v) sh) k).isSome = true := by
  induction keys with
  | nil => intro sh k h; exact h
  | cons k1 rest ih =>
    intro sh k h
    rw [List.foldl_cons]
    apply ih
    rw [jsGet_jsSet]
    by_cases hk : k1 = k
    · simp [hk]
    · simp [hk, h]

theorem applyShow_preserves (fetch : String → Option String) (now : Nat)
    (title date link : Option String) (shows T : Table) (k : String) :
    applyShow fetch now title date link shows = Except.ok T →
    (jsGet shows k).isSome = true → (jsGet T k).isSome = true := by
  unfold applyShow
  by_cases hc : (truthy link && truthy title && truthy date) = true
  · rw [if_pos hc]
    cases hf : fetch (link.getD "") with
    | none => intro h; exact Except.noConfusion h
    | some dat =>
      intro h hks
      injection h with h2
      rw [← h2]
      exact foldl_jsSet_preserves _ _ shows k hks
  · rw [if_neg hc]
    intro h hks
    injection h with h2
    rw [← h2]
    exact hks

theorem ingest_fold_ok_key (fetch : String → Option String) (now : Nat) (k : String) :
    ∀ (ts : List (Option String × Option String × Option String))
      (acc : Except Unit Table),
      (∀ S, acc = Except.ok S → (jsGet S k).isSome = true) →
      ∀ T, ts.foldl
          (fun acc t => acc.bind (fun shows => applyShow fetch now t.1 t.2.1 t.2.2 shows))
          acc = Except.ok T →
        (jsGet T k).isSome = true := by
  intro ts
  induction ts with
  | nil => intro acc hacc T h; exact hacc T h
  | cons t ts ih =>
    intro acc hacc T h
    rw [List.foldl_cons] at h
    apply ih _ _ T h
    intro S hS
    cases acc with
    | error e => exact Except.noConfusion hS
    | ok S0 =>
      have hS0 := hacc S0 rfl
      exact applyShow_preserves fetch now t.1 t.2.1 t.2.2 S0 S k hS hS0

theorem ingestTriples_ok_key (fetch : String → Option String) (now : Nat)
    (triples : List (Option String × Option String × Option String)) (k : String)
    (hseed : (jsGet defaultShows k).isSome = true) (T : Table)
    (h : ingestTriples fetch now triples = Except.ok T) :
    (jsGet T k).isSome = true := by
  unfold ingestTriples at h
  refine ingest_fold_ok_key fetch now k triples (Except.ok defaultShows) ?_ T h
  intro S hS
  injection hS with h2
  rw [← h2]
  exact hseed

theorem foldl_ingest_error (fetch : String → Option String) (now : Nat)
    (ts : List (Option String × Option String × Option String)) :
    ts.foldl
        (fun acc t => acc.bind (fun shows => applyShow fetch now t.1 t.2.1 t.2.2 shows))
        (Except.error ()) = Except.error () := by
  induction ts with
  | nil => rfl
  | cons t ts ih =>
    rw [List.foldl_cons]
    exact ih

theorem applyShow_fetch_error (fetch : String → Option String) (now : Nat)
    (title date link : Option String) (shows : Table)
    (ht : truthy title = true) (hd : truthy date = true) (hl : truthy link = true)
    (hf : fetch (link.getD "") = none) :
    applyShow fetch now title date link shows = Except.error () := by
  unfold applyShow
  rw [if_pos (by rw [hl, ht, hd]; rfl)]
  rw [hf]

theorem foldl_ingest_error_of_mem (fetch : String → Option String) (now : Nat) :
    ∀ (ts : List (Option String × Option String × Option String))
      (acc : Except Unit Table)
      (t : Option String × Option String × Option String), t ∈ ts →
      truthy t.1 = true → truthy t.2.1 = true → truthy t.2.2 = true →
      fetch (t.2.2.getD "") = none →
      ts.foldl
          (fun acc t => acc.bind (fun shows => applyShow fetch now t.1 t.2.1 t.2.2 shows))
          acc = Except.error () := by
  intro ts
  induction ts with
  | nil => intro acc t hmem; exact absurd hmem (List.not_mem_nil t)
  | cons a ts ih =>
    intro acc t hmem ht hd hl hf
    rw [List.foldl_cons]
    rcases List.mem_cons.mp hmem with rfl | hmem2
    · cases acc with
      | error e => exact foldl_ingest_error fetch now ts
      | ok S =>
        rw [show (Except.ok S).bind (fun shows => applyShow fetch now t.1 t.2.1 t.2.2 shows)
            = applyShow fetch now t.1 t.2.1 t.2.2 S from rfl]
        rw [applyShow_fetch_error fetch now t.1 t.2.1 t.2.2 S ht hd hl hf]
        exact foldl_ingest_error fetch now ts
    · exact ih _ t hmem2 ht hd hl hf

/-- C7: for every current table and every fresh table, the XML-refresh merge
(Object.assign of the fresh table onto a copy of the current one) looks up to
the fresh record when the fresh table has the key, and otherwise to the
current record; in particular the merged key set is the union of both, a key
present in both maps to the fresh record, and a key only in the current table
keeps its current record. -/
theorem C7_xml_merge_union (current fresh : Table) (k : String) :
    jsGet (jsObjectAssign current fresh) k =
      match jsGet fresh k with
      | some v => some v
      | none => jsGet current k :=
  jsGet_jsObjectAssign current fresh k

/-- C1 (amended): if the lowercased query is an exact key of the table, the
playArchive resolution returns that key's record immediately, with no
staleness check and no fuzzy matching; consequently resolve("wfmu") returns
the permanent live-stream record whenever the table still maps "wfmu" to it
(the original claim's "always" fails: an ingested show whose normalized title
is "wfmu" overwrites that record, see the counterexample). -/
theorem C1_exact_match_amended :
    (∀ (archives : Table) (name : String) (now : Nat) (r : ArchiveRecord),
        jsGet archives (jsToLowerStr name) = some r →
        resolveArchive archives name now = some r) ∧
    (∀ (archives : Table) (now : Nat),
        jsGet archives "wfmu" = some liveStreamShow →
        resolveArchive archives "wfmu" now = some liveStreamShow) := by
  have H1 : ∀ (archives : Table) (name : String) (now : Nat) (r : ArchiveRecord),
      jsGet archives (jsToLowerStr name) = some r →
      resolveArchive archives name now = some r := by
    intro archives name now r h
    simp only [resolveArchive]
    rw [h]
  refine ⟨H1, fun archives now h => H1 archives "wfmu" now liveStreamShow ?_⟩
  rw [show jsToLowerStr "wfmu" = "wfmu" from by decide]
  exact h

/-- Witness for C1: on the default table, resolving "wfmu" yields the
live-stream record at an arbitrary time. -/
theorem C1_witness : resolveArchive defaultShows "wfmu" 123456 = some liveStreamShow :=
  C1_exact_match_amended.2 defaultShows 123456 (by decide)

/-- Counterexample to C1 as stated: ingesting a listing with a show titled
"WFMU" overwrites the permanent key, after which resolve("wfmu") returns the
scraped record, not the live-stream record. -/
theorem C1_counterexample :
    ingestTriples fetchConst 5 [(some "WFMU", some "monday", some "L")]
        = Except.ok tableC1 ∧
    resolveArchive tableC1 "wfmu" 5 = some recC1 ∧ recC1 ≠ liveStreamShow :=
  ⟨by decide, by decide, by decide⟩

/-- C3 (amended): a failure of the single per-triple resource-resolution
fetch rejects that iteratee, and async.each then rejects the whole ingestion
call: whenever some triple with all three fields present has a failing fetch,
the listing refresh produces an error and no table at all (triples are only
skipped silently when a field is missing or empty). -/
theorem C3_perTriple_abort_amended :
    ∀ (fetch : String → Option String) (now : Nat)
      (triples : List (Option String × Option String × Option String)),
      (∃ t ∈ triples, truthy t.1 = true ∧ truthy t.2.1 = true ∧
        truthy t.2.2 = true ∧ fetch (t.2.2.getD "") = none) →
      ingestTriples fetch now triples = Except.error () := by
  intro fetch now triples h
  obtain ⟨t, hmem, ht, hd, hl, hf⟩ := h
  unfold ingestTriples
  exact foldl_ingest_error_of_mem fetch now triples _ t hmem ht hd hl hf

/-- Witness for C3: a one-triple listing whose fetch fails is rejected. -/
theorem C3_witness :
    ingestTriples (fun _ => (none : Option String)) 0 [(some "A", some "d", some "l")]
      = Except.error () :=
  C3_perTriple_abort_amended (fun _ => none) 0 [(some "A", some "d", some "l")]
    ⟨(some "A", some "d", some "l"), by decide, by decide, by decide, by decide, rfl⟩

/-- Counterexample to C3 as stated: with two well-formed triples where only
the first triple's fetch fails, the whole ingestion rejects instead of
producing a table from the surviving second triple. -/
theorem C3_counterexample :
    ingestTriples fetchC3 0
        [(some "A", some "d1", some "l1"), (some "B", some "d2", some "l2")]
      = Except.error () := by decide

theorem bestStep_snd_le (q : String) (now : Nat) (σ : Option String × Nat)
    (kv : String × ArchiveRecord) : (bestStep q now σ kv).2 ≤ σ.2 := by
  simp only [bestStep]
  by_cases h : levenshtein q.data kv.1.data < σ.2
  · rw [if_pos h]
    by_cases hs : isStale now kv.2 = true
    · rw [if_pos hs]
    · rw [if_neg hs]
      exact Nat.le_of_lt h
  · rw [if_neg h]

theorem bestFold_snd_le (q : String) (now : Nat) :
    ∀ (l : Table) (σ : Option String × Nat),
      (l.foldl (bestStep q now) σ).2 ≤ σ.2 := by
  intro l
  induction l with
  | nil => intro σ; exact Nat.le_refl _
  | cons kv rest ih =>
    intro σ
    rw [List.foldl_cons]
    exact Nat.le_trans (ih _) (bestStep_snd_le q now σ kv)

theorem bestFold_min (q : String) (now : Nat) :
    ∀ (l : Table) (σ : Option String × Nat) (kv : String × ArchiveRecord),
      kv ∈ l → isStale now kv.2 = false →
      (l.foldl (bestStep q now) σ).2 ≤ levenshtein q.data kv.1.data := by
  intro l
  induction l with
  | nil => intro σ kv h _; exact absurd h (List.not_mem_nil kv)
  | cons a rest ih =>
    intro σ kv hmem hs
    rw [List.foldl_cons]
    rcases List.mem_cons.mp hmem with rfl | h2
    · refine Nat.le_trans (bestFold_snd_le q now rest _) ?_
      simp only [bestStep]
      by_cases hlt : levenshtein q.data kv.1.data < σ.2
      · rw [if_pos hlt, if_neg (by simp [hs])]
      · rw [if_neg hlt]
        exact Nat.le_of_not_lt hlt
    · exact ih _ kv h2 hs

theorem bestFold_inv (q : String) (now : Nat) (L : Table) :
    ∀ (l : Table) (σ : Option String × Nat),
      (∀ kv, kv ∈ l → kv ∈ L) →
      (σ.1 = none → σ.2 = 10000) →
      (∀ key, σ.1 = some key → ∃ r, (key, r) ∈ L ∧ isStale now r = false ∧
          levenshtein q.data key.data = σ.2) →
      ((l.foldl (bestStep q now) σ).1 = none →
        (l.foldl (bestStep q now) σ).2 = 10000) ∧
      (∀ key, (l.foldl (bestStep q now) σ).1 = some key →
        ∃ r, (key, r) ∈ L ∧ isStale now r = false ∧
          levenshtein q.data key.data = (l.foldl (bestStep q now) σ).2) := by
  intro l
  induction l with
  | nil => intro σ _ h1 h2; exact ⟨h1, h2⟩
  | cons kv rest ih =>
    intro σ hsub h1 h2
    rw [List.foldl_cons]
    apply ih
    · intro kv2 hm
      exact hsub kv2 (List.mem_cons_of_mem kv hm)
    · simp only [bestStep]
      by_cases hlt : levenshtein q.data kv.1.data < σ.2
      · rw [if_pos hlt]
        by_cases hst : isStale now kv.2 = true
        · rw [if_pos hst]
          exact h1
        · rw [if_neg hst]
          intro hnone
          exact absurd hnone (by simp)
      · rw [if_neg hlt]
        exact h1
    · simp only [bestStep]
      by_cases hlt : levenshtein q.data kv.1.data < σ.2
      · rw [if_pos hlt]
        by_cases hst : isStale now kv.2 = true
        · rw [if_pos hst]
          exact h2
        · rw [if_neg hst]
          simp only [Bool.not_eq_true] at hst
          intro key hkey
          have hk : kv.1 = key := by simpa using hkey
          refine ⟨kv.2, ?_, ?_, ?_⟩
          · rw [← hk, Prod.mk.eta]
            exact hsub kv (List.mem_cons_self kv rest)
          · exact hst
          · rw [← hk]
      · rw [if_neg hlt]
        exact h2

theorem bestFold_stuck (q : String) (now : Nat) :
    ∀ (l : Table),
      (∀ kv, kv ∈ l → isStale now kv.2 = true ∨
        10000 ≤ levenshtein q.data kv.1.data) →
      l.foldl (bestStep q now) (none, 10000) = (none, 10000) := by
  intro l
  induction l with
  | nil => intro _; rfl
  | cons kv rest ih =>
    intro h
    rw [List.foldl_cons]
    have hstep : bestStep q now (none, 10000) kv = (none, 10000) := by
      show (if levenshtein q.data kv.1.data < 10000 then
          (if isStale now kv.2 = true then ((none : Option String), (10000 : Nat))
            else (some kv.1, levenshtein q.data kv.1.data))
        else ((none : Option String), (10000 : Nat))) = (none, 10000)
      rcases h kv (List.mem_cons_self kv rest) with hst | hbig
      · by_cases hlt : levenshtein q.data kv.1.data < 10000
        · rw [if_pos hlt, if_pos hst]
        · rw [if_neg hlt]
      · rw [if_neg (by omega)]
    rw [hstep]
    exact ih (fun kv2 hm => h kv2 (List.mem_cons_of_mem kv hm))

theorem getBestMatch_stale_free (archives : Table) (q : String) (now : Nat)
    (hnodup : (archives.map Prod.fst).Nodup)
    (hnull : ∀ v, ("null", v) ∉ archives) (r : ArchiveRecord) :
    getBestMatchArchive archives q now = some r → isStale now r = false := by
  intro h
  simp only [getBestMatchArchive] at h
  have inv := bestFold_inv q now archives archives (none, 10000) (fun kv hm => hm)
    (fun _ => rfl) (fun key hk => absurd hk (by simp))
  cases hbest : (archives.foldl (bestStep q now) (none, 10000)).1 with
  | none =>
    rw [hbest, show jsKeyString none = "null" from rfl,
      jsGet_none_of_not_mem hnull] at h
    exact Option.noConfusion h
  | some key =>
    obtain ⟨r0, hmem, hst, _⟩ := inv.2 key hbest
    rw [hbest, show jsKeyString (some key) = key from rfl,
      jsGet_of_mem_nodup hnodup hmem] at h
    injection h with h2
    rw [← h2]
    exact hst

/-- C2 (amended): fuzzy matching scans every pair and, whenever some
non-stale candidate is at edit distance below the initial sentinel 10000,
returns the record of a non-stale key of minimum edit distance among
non-stale candidates; when every candidate is stale or at distance 10000 or
more (in particular when the table is empty) the final lookup — which
JavaScript performs under the literal key "null" — yields not-found provided
no key is the string "null".  The original claim's "regardless of how large
the distance is" fails at distance 10000, see the counterexample. -/
theorem C2_fuzzy_minimum_amended :
    ∀ (archives : Table) (q : String) (now : Nat),
      (archives.map Prod.fst).Nodup →
      ((∃ kv ∈ archives, isStale now kv.2 = false ∧
          levenshtein q.data kv.1.data < 10000) →
        ∃ kv ∈ archives, isStale now kv.2 = false ∧
          getBestMatchArchive archives q now = some kv.2 ∧
          ∀ kv2 ∈ archives, isStale now kv2.2 = false →
            levenshtein q.data kv.1.data ≤ levenshtein q.data kv2.1.data) ∧
      ((∀ v, ("null", v) ∉ archives) →
       (∀ kv ∈ archives, isStale now kv.2 = true ∨
          10000 ≤ levenshtein q.data kv.1.data) →
        getBestMatchArchive archives q now = none) := by
  intro archives q now hnodup
  constructor
  · rintro ⟨kv0, hkv0mem, hkv0st, hkv0lt⟩
    have hmin0 := bestFold_min q now archives (none, 10000) kv0 hkv0mem hkv0st
    have inv := bestFold_inv q now archives archives (none, 10000) (fun kv hm => hm)
      (fun _ => rfl) (fun key hk => absurd hk (by simp))
    cases hbest : (archives.foldl (bestStep q now) (none, 10000)).1 with
    | none =>
      exfalso
      have h10 := inv.1 hbest
      omega
    | some key =>
      obtain ⟨r0, hmem, hst, hlev⟩ := inv.2 key hbest
      refine ⟨(key, r0), hmem, hst, ?_, ?_⟩
      · simp only [getBestMatchArchive]
        rw [hbest, show jsKeyString (some key) = key from rfl]
        exact jsGet_of_mem_nodup hnodup hmem
      · intro kv2 hm2 hs2
        have hm := bestFold_min q now archives (none, 10000) kv2 hm2 hs2
        have hg : levenshtein q.data key.data ≤ levenshtein q.data kv2.1.data := by
          omega
        exact hg
  · intro hnull hall
    have hstuck := bestFold_stuck q now archives hall
    simp only [getBestMatchArchive]
    rw [hstuck, show jsKeyString ((none : Option String), (10000 : Nat)).1 = "null"
      from rfl]
    exact jsGet_none_of_not_mem hnull

/-- Witness for C2: a table whose only record is 31 days old has no eligible
candidate, so fuzzy matching returns not-found. -/
theorem C2_witness :
    getBestMatchArchive [("a", recC6)] "x" nowC6 = none :=
  (C2_fuzzy_minimum_amended [("a", recC6)] "x" nowC6 (by decide)).2
    (fun v hv => by
      rw [List.mem_singleton, Prod.mk.injEq] at hv
      exact absurd hv.1 (by decide))
    (by
      intro kv hm
      rw [List.mem_singleton] at hm
      subst hm
      left
      decide)

/-- Counterexample to C2 as stated: the single candidate is not stale, yet a
query at edit distance 10000 from its key gets not-found, because the best
distance starts at the sentinel 10000 and only strict improvements are
taken. -/
theorem C2_counterexample :
    getBestMatchArchive [("a", liveStreamShow)] bigQuery 0 = none ∧
    isStale 0 liveStreamShow = false := by
  constructor
  · have hstep : bestStep bigQuery 0 (none, 10000) ("a", liveStreamShow)
        = (none, 10000) := by
      show (if levenshtein bigQuery.data ("a" : String).data < 10000 then
          (if isStale 0 liveStreamShow = true then ((none : Option String), (10000 : Nat))
            else (some "a", levenshtein bigQuery.data ("a" : String).data))
        else ((none : Option String), (10000 : Nat))) = (none, 10000)
      rw [levenshtein_big, if_neg (by omega)]
    have hfold : ([("a", liveStreamShow)] : Table).foldl (bestStep bigQuery 0)
        (none, 10000) = (none, 10000) := by
      rw [List.foldl_cons, List.foldl_nil, hstep]
    show jsGet [("a", liveStreamShow)]
      (jsKeyString (([("a", liveStreamShow)] : Table).foldl (bestStep bigQuery 0)
        (none, 10000)).1) = none
    rw [hfold]
    decide
  · decide

/-- C6 (amended): fuzzy matching never returns a record whose nonzero
discoveredAt is more than 30 days before now, provided no key is the literal
string "null" (the fallback lookup key JavaScript uses when no candidate was
selected — a stale record stored under the key "null" can still be returned,
see the counterexample); a record discovered 31 days ago is stale, and a
record discovered 29 days ago remains eligible and is returned when closest. -/
theorem C6_staleness_amended :
    (∀ (archives : Table) (q : String) (now : Nat) (r : ArchiveRecord),
        (archives.map Prod.fst).Nodup → (∀ v, ("null", v) ∉ archives) →
        getBestMatchArchive archives q now = some r → isStale now r = false) ∧
    isStale nowC6 recC6 = true ∧
    getBestMatchArchive tableC6b "wakex" nowC6b = some recC6b ∧
    isStale nowC6b recC6b = false := by
  refine ⟨?_, by decide, by decide, by decide⟩
  intro archives q now r hn hnull h
  exact getBestMatch_stale_free archives q now hn hnull r h

/-- Witness for C6: the record fuzzy matching returns on the default table is
not stale. -/
theorem C6_witness : isStale 77 liveStreamShow = false :=
  C6_staleness_amended.1 defaultShows "playa" 77 liveStreamShow (by decide)
    (fun v hv => by
      rcases List.mem_cons.mp hv with h | h
      · rw [Prod.mk.injEq] at h
        exact absurd h.1 (by decide)
      · rw [List.mem_singleton, Prod.mk.injEq] at h
        exact absurd h.1 (by decide))
    (by decide)

/-- Counterexample to C6 as stated: a record discovered 31 days ago stored
under the key "null" is returned by fuzzy matching, because no candidate is
selected and JavaScript then reads the property named "null". -/
theorem C6_counterexample :
    getBestMatchArchive tableC6 "x" nowC6 = some recC6 ∧
    isStale nowC6 recC6 = true :=
  ⟨by decide, by decide⟩

/-- C9 (amended): after every ingestion (whatever its triples) the permanent
keys "wfmu" and "play" are present in the produced table, the merge keeps
every key present in either operand, and the seeded live-stream record is
never aged out (it has no dateFound); but the permanent keys keep mapping to
the identical live-stream record only as long as no ingested title's synonym
key equals "wfmu" or "play" — such a title overwrites the record, see the
counterexample. -/
theorem C9_permanent_keys_amended :
    (∀ (fetch : String → Option String) (now : Nat)
        (triples : List (Option String × Option String × Option String)) (T : Table),
        ingestTriples fetch now triples = Except.ok T →
        (jsGet T "wfmu").isSome = true ∧ (jsGet T "play").isSome = true) ∧
    (∀ (a b : Table) (k : String),
        ((jsGet a k).isSome = true ∨ (jsGet b k).isSome = true) →
        (jsGet (jsObjectAssign a b) k).isSome = true) ∧
    (∀ now : Nat, isStale now liveStreamShow = false) := by
  refine ⟨?_, ?_, fun _ => rfl⟩
  · intro fetch now triples T h
    exact ⟨ingestTriples_ok_key fetch now triples "wfmu" (by decide) T h,
      ingestTriples_ok_key fetch now triples "play" (by decide) T h⟩
  · intro a b k h
    cases hb : jsGet b k with
    | some v =>
      rw [jsGet_jsObjectAssign, hb]
      rfl
    | none =>
      rw [jsGet_jsObjectAssign, hb]
      rcases h with ha | hbb
      · exact ha
      · rw [hb] at hbb
        exact absurd hbb (by simp)

/-- Witness for C9: the empty ingestion yields the default table, with both
permanent keys present. -/
theorem C9_witness :
    (jsGet defaultShows "wfmu").isSome = true ∧
    (jsGet defaultShows "play").isSome = true :=
  C9_permanent_keys_amended.1 fetchConst 0 [] defaultShows rfl

/-- Counterexample to C9 as stated: ingesting a show titled "Play!" (whose
normalized key is "play") overwrites the permanent live-stream record under
the key "play". -/
theorem C9_counterexample :
    ingestTriples fetchConst 7 [(some "Play!", some "tue", some "L")]
        = Except.ok tableC9 ∧
    jsGet tableC9 "play" = some recC9 ∧ recC9 ≠ liveStreamShow :=
  ⟨by decide, by decide, by decide⟩

theorem listStartsWith_length :
    ∀ (s pat : List Char), listStartsWith s pat = true → pat.length ≤ s.length := by
  intro s
  induction s with
  | nil =>
    intro pat h
    cases pat with
    | nil => exact Nat.le_refl _
    | cons b bs => exact absurd h (by simp [listStartsWith])
  | cons a s ih =>
    intro pat h
    cases pat with
    | nil => simp
    | cons b bs =>
      simp only [listStartsWith, Bool.and_eq_true] at h
      have := ih bs h.2
      simp only [List.length_cons]
      omega

theorem matchGreedySplit_lt (sep r : List Char) (g : List Char × List Char)
    (hsep : sep ≠ []) (h : matchGreedySplit sep r = some g) :
    g.1.length < r.length := by
  unfold matchGreedySplit at h
  rw [Option.map_eq_some'] at h
  obtain ⟨j, hj, hg⟩ := h
  have hmem := List.mem_of_getLast?_eq_some hj
  have hc := (List.mem_filter.mp hmem).2
  simp only [Bool.and_eq_true, decide_eq_true_eq] at hc
  have hlen := listStartsWith_length _ _ hc.1.2
  have hpos : 1 ≤ sep.length := by
    cases sep with
    | nil => exact absurd rfl hsep
    | cons c cs => simp only [List.length_cons]; omega
  have hdrop : (r.drop j).length = r.length - j := List.length_drop j r
  rw [← hg]
  simp only [List.length_take]
  omega

theorem jsMatchTwoGroups_lt :
    ∀ (t : List Char) (g : List Char × List Char),
      jsMatchTwoGroups [] withSep t = some g → g.1.length < t.length := by
  intro t
  induction t with
  | nil => intro g h; exact Option.noConfusion h
  | cons c rest ih =>
    intro g h
    simp only [jsMatchTwoGroups, listStartsWith, if_true, List.length_nil,
      List.drop_zero] at h
    cases hms : matchGreedySplit withSep (c :: rest) with
    | some g2 =>
      rw [hms] at h
      injection h with h2
      rw [← h2]
      exact matchGreedySplit_lt withSep (c :: rest) g2 (by decide) hms
    | none =>
      rw [hms] at h
      have := ih g h
      simp only [List.length_cons]
      omega

theorem stripHostsFuel_congr :
    ∀ (n m : Nat) (t : List Char), t.length ≤ n → t.length ≤ m →
      stripHostsFuel n t = stripHostsFuel m t := by
  intro n
  induction n with
  | zero =>
    intro m t hn _
    have ht : t = [] := List.length_eq_zero.mp (by omega)
    subst ht
    cases m <;> rfl
  | succ n ih =>
    intro m t hn hm
    cases m with
    | zero =>
      have ht : t = [] := List.length_eq_zero.mp (by omega)
      subst ht
      rfl
    | succ m =>
      simp only [stripHostsFuel]
      cases hms : jsMatchTwoGroups [] withSep t with
      | none => rfl
      | some g =>
        have hlt := jsMatchTwoGroups_lt t g hms
        exact ih m g.1 (by omega) (by omega)

/-- C10: every successful match of the co-host pattern strictly shortens the
title (its first captured group is strictly shorter than the input), so the
stripping loop terminates; accordingly any iteration bound of at least the
title's length computes the loop's result, making title extraction a total
function of the raw title. -/
theorem C10_host_strip_terminates :
    (∀ (t : List Char) (g : List Char × List Char),
        jsMatchTwoGroups [] withSep t = some g → g.1.length < t.length) ∧
    (∀ (t : List Char) (n : Nat), t.length ≤ n →
        stripHostsFuel n t = stripHosts t) := by
  refine ⟨jsMatchTwoGroups_lt, ?_⟩
  intro t n hn
  unfold stripHosts
  exact stripHostsFuel_congr n t.length t hn (Nat.le_refl _)

/-- Witness for C10: on the title "a with b" the pattern matches with capture
"a", which is strictly shorter, and a generous iteration bound agrees with
the loop's result. -/
theorem C10_witness :
    jsMatchTwoGroups [] withSep ("a with b" : String).data
        = some (("a" : String).data, ("b" : String).data) ∧
    (("a" : String).data).length < (("a with b" : String).data).length ∧
    stripHostsFuel 20 ("a with b" : String).data
        = stripHosts ("a with b" : String).data := by
  refine ⟨by decide, ?_, ?_⟩
  · exact C10_host_strip_terminates.1 ("a with b" : String).data
      (("a" : String).data, ("b" : String).data) (by decide)
  · exact C10_host_strip_terminates.2 ("a with b" : String).data 20 (by decide)

/-- C8: the raw XML title "WFMU MP3 Archive: Wake with Co-Host from Monday
1/1" parses to title "Wake" and date "Monday 1/1" after the archive-title
match and repeated co-host stripping; and a raw title that does not match
the archive-title pattern assigns no date, so that feed item is skipped by
ingestion, returning the table unchanged. -/
theorem C8_xml_title_extraction :
    xmlTitleDate "WFMU MP3 Archive: Wake with Co-Host from Monday 1/1"
        = some ("Wake", "Monday 1/1") ∧
    (∀ (fetch : String → Option String) (now : Nat) (guid : Option String)
        (raw : String) (shows : Table),
        matchArchiveTitle raw = none →
        xmlProcessItem fetch now (guid, some raw) shows = Except.ok shows) := by
  constructor
  · decide
  · intro fetch now guid raw shows h
    simp only [xmlProcessItem]
    rw [h]
    show applyShow fetch now (some raw) none guid shows = Except.ok shows
    simp [applyShow, truthy]

/-- Witness for C8: a title without the archive prefix leaves the default
table unchanged. -/
theorem C8_witness :
    xmlProcessItem fetchConst 0 (some "g", some "hello") defaultShows
      = Except.ok defaultShows :=
  C8_xml_title_extraction.2 fetchConst 0 (some "g") "hello" defaultShows (by decide)

theorem dateCapture_append (a0 : Char) (a' b : List Char)
    (hna : ∀ c ∈ a0 :: a', c ≠ '\n') (hb : ∀ c ∈ b, c ≠ ':' ∧ c ≠ '\n') :
    dateCapture (a0 :: (a' ++ ':' :: b)) = some (a0 :: a') := by
  have hseg : (a0 :: (a' ++ ':' :: b)).takeWhile (fun c => c != '\n')
      = a0 :: (a' ++ ':' :: b) := by
    apply List.takeWhile_eq_self_iff.mpr
    intro x hx
    have hxne : x ≠ '\n' := by
      rcases List.mem_cons.mp hx with rfl | hx2
      · exact hna x (List.mem_cons_self x a')
      · rcases List.mem_append.mp hx2 with hx3 | hx3
        · exact hna x (List.mem_cons_of_mem a0 hx3)
        · rcases List.mem_cons.mp hx3 with rfl | hx4
          · decide
          · exact (hb x hx4).2
    exact bne_iff_ne.mpr hxne
  have hlenn : 1 ≤ (a0 :: a').length := by
    simp only [List.length_cons]
    omega
  have hget_n : (a0 :: (a' ++ ':' :: b)).getD (a0 :: a').length ' ' = ':' := by
    rw [show a0 :: (a' ++ ':' :: b) = (a0 :: a') ++ ':' :: b from rfl]
    rw [List.getD_eq_getElem?_getD, List.getElem?_append_right (Nat.le_refl _)]
    simp
  have hfilter :
      ((List.range (a0 :: (a' ++ ':' :: b)).length).filter
        (fun j => decide (1 ≤ j) &&
          ((a0 :: (a' ++ ':' :: b)).getD j ' ' == ':'))).getLast?
      = some (a0 :: a').length := by
    have hlen : (a0 :: (a' ++ ':' :: b)).length = ((a0 :: a').length + 1) + b.length := by
      simp only [List.length_cons, List.length_append]
      omega
    rw [hlen, List.range_add, List.filter_append, List.range_succ,
      List.filter_append]
    have hpn : (decide (1 ≤ (a0 :: a').length) &&
        ((a0 :: (a' ++ ':' :: b)).getD (a0 :: a').length ' ' == ':')) = true := by
      rw [hget_n]
      simp [hlenn]
    have hone : List.filter
        (fun j => decide (1 ≤ j) && ((a0 :: (a' ++ ':' :: b)).getD j ' ' == ':'))
        [(a0 :: a').length] = [(a0 :: a').length] := by
      rw [List.filter_cons, if_pos hpn]
      rfl
    have htail : List.filter
        (fun j => decide (1 ≤ j) && ((a0 :: (a' ++ ':' :: b)).getD j ' ' == ':'))
        ((List.range b.length).map (fun i => ((a0 :: a').length + 1) + i)) = [] := by
      rw [List.filter_eq_nil_iff]
      intro j hj
      rw [List.mem_map] at hj
      obtain ⟨i, hi, rfl⟩ := hj
      rw [List.mem_range] at hi
      have hget : (a0 :: (a' ++ ':' :: b)).getD ((a0 :: a').length + 1 + i) ' '
          = b.getD i ' ' := by
        rw [show a0 :: (a' ++ ':' :: b) = (a0 :: a') ++ ':' :: b from rfl]
        rw [List.getD_eq_getElem?_getD,
          List.getElem?_append_right (by omega)]
        rw [show (a0 :: a').length + 1 + i - (a0 :: a').length = 1 + i by omega]
        rw [show (1 + i) = i + 1 by omega]
        rw [List.getElem?_cons_succ, List.getD_eq_getElem?_getD]
      have hbmem : b.getD i ' ' ∈ b := by
        rw [List.getD_eq_getElem?_getD, List.getElem?_eq_getElem hi]
        exact List.getElem_mem hi
      have hbne : b.getD i ' ' ≠ ':' := (hb _ hbmem).1
      intro hcontra
      simp only [Bool.and_eq_true, decide_eq_true_eq, beq_iff_eq] at hcontra
      rw [hget] at hcontra
      exact hbne hcontra.2
    rw [hone, htail, List.append_nil, List.getLast?_concat]
  simp only [dateCapture]
  rw [hseg, hfilter]
  show some (List.take (a0 :: a').length ((a0 :: a') ++ ':' :: b)) = some (a0 :: a')
  rw [List.take_left]

/-- C4 (amended): for every HTML listing entry, the date is computed by
trimming the date element's text and taking everything before the LAST colon
of that text (within the first newline-free segment; the capture is then
trimmed and lowercased); a trimmed date text with more than one colon yields
the portion before its last colon, not its first — the pattern's leading
group is greedy. -/
theorem C4_html_date_amended :
    ∀ (raw : String) (a b : List Char),
      jsTrimList raw.data = a ++ ':' :: b → a ≠ [] →
      (∀ c ∈ a, c ≠ '\n') → (∀ c ∈ b, c ≠ ':' ∧ c ≠ '\n') →
      htmlShowDate raw = some (String.mk ((jsTrimList a).map Char.toLower)) := by
  intro raw a b htrim ha hna hb
  obtain ⟨a0, a', rfl⟩ : ∃ a0 a', a = a0 :: a' := by
    cases a with
    | nil => exact absurd rfl ha
    | cons x xs => exact ⟨x, xs, rfl⟩
  unfold htmlShowDate
  rw [htrim, show (a0 :: a') ++ ':' :: b = a0 :: (a' ++ ':' :: b) from rfl,
    dateCapture_append a0 a' b hna hb]
  rfl

/-- Witness for C4: the trimmed text "ab:cd" splits before its (only) colon,
and the extracted date is "ab". -/
theorem C4_witness :
    jsTrimList (" ab:cd " : String).data
        = ("ab" : String).data ++ ':' :: ("cd" : String).data ∧
    htmlShowDate " ab:cd " = some "ab" := by
  refine ⟨by decide, ?_⟩
  have h := C4_html_date_amended " ab:cd " ("ab" : String).data ("cd" : String).data
    (by decide) (by decide) (by decide) (by decide)
  rw [h]
  decide

/-- Counterexample to C4 as stated: on the date text "ab:cd:ef" the code
captures everything before the last colon ("ab:cd"), not everything before
the first colon ("ab") as the claim describes. -/
theorem C4_counterexample :
    htmlShowDate "ab:cd:ef" = some "ab:cd" ∧
    claimDateBeforeFirstColon "ab:cd:ef" = some "ab" ∧
    htmlShowDate "ab:cd:ef" ≠ claimDateBeforeFirstColon "ab:cd:ef" :=
  ⟨by decide, by decide, by decide⟩

theorem char_toNat_ofNat_valid (m : Nat) (h : m < 55296) :
    (Char.ofNat m).toNat = m := by
  rw [Char.ofNat, dif_pos (Or.inl h)]
  rfl

theorem toLower_toLower (c : Char) :
    Char.toLower (Char.toLower c) = Char.toLower c := by
  by_cases h : c.toNat ≥ 65 ∧ c.toNat ≤ 90
  · have h1 : Char.toLower c = Char.ofNat (c.toNat + 32) := by
      simp only [Char.toLower]
      rw [if_pos h]
    have hv : (Char.ofNat (c.toNat + 32)).toNat = c.toNat + 32 :=
      char_toNat_ofNat_valid _ (by omega)
    rw [h1]
    simp only [Char.toLower]
    rw [if_neg (by rw [hv]; omega)]
  · have h1 : Char.toLower c = c := by
      simp only [Char.toLower]
      rw [if_neg h]
    rw [h1, h1]

theorem mem_of_greedyCapBefore (post r c : List Char)
    (h : greedyCapBefore post r = some c) : ∀ x ∈ c, x ∈ r := by
  unfold greedyCapBefore at h
  rw [Option.map_eq_some'] at h
  obtain ⟨j, _, rfl⟩ := h
  intro x hx
  exact List.take_subset _ _ hx

theorem mem_of_jsMatchCapture (pre post : List Char) :
    ∀ (s c : List Char), jsMatchCapture pre post s = some c → ∀ x ∈ c, x ∈ s := by
  intro s
  induction s with
  | nil => intro c h; exact Option.noConfusion h
  | cons ch rest ih =>
    intro c h x hx
    simp only [jsMatchCapture] at h
    by_cases hpre : listStartsWith (ch :: rest) pre = true
    · rw [if_pos hpre] at h
      cases hg : greedyCapBefore post ((ch :: rest).drop pre.length) with
      | some c2 =>
        rw [hg] at h
        injection h with h2
        subst h2
        exact List.drop_subset _ _ (mem_of_greedyCapBefore post _ c2 hg x hx)
      | none =>
        rw [hg] at h
        exact List.mem_cons_of_mem ch (ih c h x hx)
    · rw [if_neg hpre] at h
      exact List.mem_cons_of_mem ch (ih c h x hx)

theorem stripSpecials_mem (l : List Char) (x : Char) (hx : x ∈ stripSpecials l) :
    (x = '"' → False) ∧ (x = ':' → False) ∧ (x = '!' → False) ∧ x ∈ l := by
  unfold stripSpecials at hx
  have h1 := List.mem_filter.mp hx
  have h2 := h1.2
  simp only [Bool.not_eq_true', Bool.or_eq_false_iff, beq_eq_false_iff_ne] at h2
  exact ⟨fun he => h2.1.1 he, fun he => h2.1.2 he, fun he => h2.2 he, h1.1⟩

theorem map_toLower_fixed (l : List Char) (x : Char)
    (hx : x ∈ l.map Char.toLower) : Char.toLower x = x := by
  rw [List.mem_map] at hx
  obtain ⟨y, _, rfl⟩ := hx
  exact toLower_toLower y

/-- C5 (amended): every key produced by getTitleSynonyms — the stored keys —
is case-normalized (fixed under lowercasing) and contains none of the
characters '"', ':' and '!'; at lookup time, however, the requested name is
only lowercased and never stripped of those characters, so resolution is
insensitive to the query's case but NOT to those characters (the original
claim's lookup-side stripping does not exist, see the counterexample). -/
theorem C5_normalization_amended :
    (∀ (title k : String), k ∈ getTitleSynonyms title →
        ∀ x ∈ k.data, (x = '"' → False) ∧ (x = ':' → False) ∧
          (x = '!' → False) ∧ Char.toLower x = x) ∧
    (∀ (archives : Table) (name : String) (now : Nat),
        resolveArchive archives name now
          = resolveArchive archives (jsToLowerStr name) now) := by
  constructor
  · intro title k hk x hx
    have hchar : ∀ y, y ∈ stripSpecials (title.data.map Char.toLower) →
        (y = '"' → False) ∧ (y = ':' → False) ∧ (y = '!' → False) ∧
          Char.toLower y = y := by
      intro y hy
      have h1 := stripSpecials_mem _ y hy
      exact ⟨h1.1, h1.2.1, h1.2.2.1, map_toLower_fixed _ y h1.2.2.2⟩
    simp only [getTitleSynonyms] at hk
    cases h2 : jsMatchCapture theLit radioProgrammeSep
        (stripSpecials (title.data.map Char.toLower)) with
    | some c2 =>
      rw [h2] at hk
      rcases List.mem_append.mp hk with hk1 | hk1
      · cases h1 : jsMatchCapture [] sShowSep
            (stripSpecials (title.data.map Char.toLower)) with
        | some c1 =>
          rw [h1] at hk1
          rcases List.mem_append.mp hk1 with hk2 | hk2
          · rw [List.mem_singleton.mp hk2] at hx
            exact hchar x hx
          · rw [List.mem_singleton.mp hk2] at hx
            exact hchar x (mem_of_jsMatchCapture [] sShowSep _ c1 h1 x hx)
        | none =>
          rw [h1] at hk1
          rw [List.mem_singleton.mp hk1] at hx
          exact hchar x hx
      · rw [List.mem_singleton.mp hk1] at hx
        exact hchar x (mem_of_jsMatchCapture theLit radioProgrammeSep _ c2 h2 x hx)
    | none =>
      rw [h2] at hk
      cases h1 : jsMatchCapture [] sShowSep
          (stripSpecials (title.data.map Char.toLower)) with
      | some c1 =>
        rw [h1] at hk
        rcases List.mem_append.mp hk with hk2 | hk2
        · rw [List.mem_singleton.mp hk2] at hx
          exact hchar x hx
        · rw [List.mem_singleton.mp hk2] at hx
          exact hchar x (mem_of_jsMatchCapture [] sShowSep _ c1 h1 x hx)
      | none =>
        rw [h1] at hk
        rw [List.mem_singleton.mp hk] at hx
        exact hchar x hx
  · intro archives name now
    have hidem : jsToLowerStr (jsToLowerStr name) = jsToLowerStr name := by
      unfold jsToLowerStr
      rw [show (String.mk (name.data.map Char.toLower)).data
          = name.data.map Char.toLower from rfl]
      rw [List.map_map]
      congr 1
      apply List.map_congr_left
      intro a _
      exact toLower_toLower a
    simp only [resolveArchive]
    rw [hidem]

/-- Witness for C5: the stored key "wake" for the title "Wake" has clean
characters, and resolving "WFMU" equals resolving its lowercased form. -/
theorem C5_witness :
    (('w' : Char) = '"' → False) ∧ (('w' : Char) = ':' → False) ∧
    (('w' : Char) = '!' → False) ∧ Char.toLower 'w' = 'w' ∧
    resolveArchive defaultShows "WFMU" 0
      = resolveArchive defaultShows (jsToLowerStr "WFMU") 0 := by
  have h := C5_normalization_amended.1 "Wake" "wake" (by decide) 'w' (by decide)
  exact ⟨h.1, h.2.1, h.2.2.1, h.2.2.2, C5_normalization_amended.2 defaultShows "WFMU" 0⟩

/-- Counterexample to C5 as stated: the query "A!" does not resolve to the
same record as the stripped query "A" — "A" hits the key "a" exactly, while
"a!" misses and fuzzy-matches onto the earlier-listed key "ab" at the same
distance 1. -/
theorem C5_counterexample :
    ingestTriples fetchC5 9
        [(some "AB", some "d", some "l1"), (some "A", some "d", some "l2")]
      = Except.ok tableC5 ∧
    resolveArchive tableC5 "A!" 9 = some recC5a ∧
    resolveArchive tableC5 "A" 9 = some recC5b ∧
    recC5a ≠ recC5b :=
  ⟨by decide, by decide, by decide, by decide⟩

end Woofmoo
